import Mathlib

/-!
Verification of the `newl` line-ending normalizer (src/main.rs).

The development shallowly embeds the two components of the program:

* the Transform Engine: `Eol`, `Eol.seq`, `convert` — the byte-stream
  rewriter from `Eol::transform_fn` / `convert` in src/main.rs, with byte
  streams as `List Nat` (each element a byte value);
* the Selection Pipeline and orchestration: `GlobEnv`, `collectFiles`,
  `selectPaths`, `runMain` — the include/exclude glob resolution and the
  per-path processing loop of `main`, with the filesystem and the glob
  matcher abstracted as an environment of functions.
-/

namespace Newl

/-- Byte constant `CR` from src/main.rs (`const CR: u8 = 0x0D`). -/
def CR : Nat := 0x0D

/-- Byte constant `LF` from src/main.rs (`const LF: u8 = 0x0A`). -/
def LF : Nat := 0x0A

/-- The `Eol` enum from src/main.rs: the target end-of-line sequence. -/
inductive Eol
  | Lf
  | Crlf
  | Cr
deriving DecidableEq

/-- The target byte sequence each `Eol` variant passes to `convert`
(the `match self` in `Eol::transform_fn`). -/
def Eol.seq : Eol → List Nat
  | .Lf => [LF]
  | .Crlf => [CR, LF]
  | .Cr => [CR]

/-- The `convert` function inside `Eol::transform_fn`: a single pass over
the byte stream with one byte of lookahead (`iter.peekable` and
`iter.next_if`). On `LF` it emits the target; on `CR` it first consumes a
directly following `LF` if present, then emits the target; any other byte
is emitted unchanged. -/
def convert (t : List Nat) : List Nat → List Nat
  | [] => []
  | [b] =>
    if b = LF then t
    else if b = CR then t
    else [b]
  | b :: n :: rest =>
    if b = LF then t ++ convert t (n :: rest)
    else if b = CR then
      if n = LF then t ++ convert t rest
      else t ++ convert t (n :: rest)
    else b :: convert t (n :: rest)

theorem cr_ne_lf : CR ≠ LF := by decide

theorem convert_nil (t : List Nat) : convert t [] = [] := rfl

theorem convert_cons_lf (t l : List Nat) : convert t (LF :: l) = t ++ convert t l := by
  cases l <;> simp [convert]

theorem convert_cons_cr_lf (t l : List Nat) :
    convert t (CR :: LF :: l) = t ++ convert t l := by
  simp [convert, cr_ne_lf]

theorem convert_cons_cr (t l : List Nat) (h : l.head? ≠ some LF) :
    convert t (CR :: l) = t ++ convert t l := by
  cases l with
  | nil => simp [convert, cr_ne_lf]
  | cons n rest =>
    simp only [List.head?] at h
    have hn : n ≠ LF := by intro he; exact h (by rw [he])
    simp [convert, cr_ne_lf, hn]

theorem convert_cons_other (t : List Nat) (b : Nat) (l : List Nat)
    (h1 : b ≠ LF) (h2 : b ≠ CR) : convert t (b :: l) = b :: convert t l := by
  cases l <;> simp [convert, h1, h2]

example : convert [LF] [0x78, CR, 0x78, LF] = [0x78, LF, 0x78, LF] := by decide
example : convert [CR, LF] [0x78, CR, 0x78, LF] = [0x78, CR, LF, 0x78, CR, LF] := by decide
example : convert [CR] [CR, LF, CR] = [CR, CR] := by decide
example : convert [LF] [] = [] := by decide

/-- C6 helper: appending a final `CR` to any input appends exactly one
target sequence to the output, because a trailing `CR` can never merge
with a preceding byte. -/
theorem convert_append_cr (t : List Nat) : ∀ s : List Nat,
    convert t (s ++ [CR]) = convert t s ++ t
  | [] => by simp [convert, cr_ne_lf]
  | [b] => by
    by_cases h1 : b = LF
    · subst h1
      rw [List.cons_append, List.nil_append, convert_cons_lf, convert_cons_lf]
      simp [convert, cr_ne_lf]
    · by_cases h2 : b = CR
      · subst h2
        rw [List.cons_append, List.nil_append,
          convert_cons_cr t [CR] (by decide), convert_cons_cr t [] (by decide)]
        simp [convert, cr_ne_lf]
      · rw [List.cons_append, List.nil_append, convert_cons_other t b [CR] h1 h2,
          convert_cons_other t b [] h1 h2]
        simp [convert, cr_ne_lf]
  | b :: n :: rest => by
    have ih1 := convert_append_cr t (n :: rest)
    have ih2 := convert_append_cr t rest
    by_cases h1 : b = LF
    · subst h1
      rw [List.cons_append, convert_cons_lf, convert_cons_lf, ih1, List.append_assoc]
    · by_cases h2 : b = CR
      · subst h2
        by_cases h3 : n = LF
        · subst h3
          rw [List.cons_append, List.cons_append, convert_cons_cr_lf,
            convert_cons_cr_lf, ih2, List.append_assoc]
        · have hh : (n :: rest ++ [CR]).head? ≠ some LF := by
            simp only [List.cons_append, List.head?]
            intro he; exact h3 (by injection he)
          have hh2 : (n :: rest).head? ≠ some LF := by
            simp only [List.head?]
            intro he; exact h3 (by injection he)
          rw [List.cons_append, convert_cons_cr t _ hh, convert_cons_cr t _ hh2,
            ih1, List.append_assoc]
      · rw [List.cons_append, convert_cons_other t b _ h1 h2,
          convert_cons_other t b _ h1 h2, ih1, List.cons_append]

/-- Every byte of the output comes either from the target sequence or is a
non-line-break byte of the input, copied unchanged. -/
theorem mem_convert (t : List Nat) : ∀ (l : List Nat) (b : Nat),
    b ∈ convert t l → b ∈ t ∨ (b ∈ l ∧ b ≠ LF ∧ b ≠ CR)
  | [], b, h => by simp [convert] at h
  | [c], b, h => by
    by_cases h1 : c = LF
    · subst h1; simp [convert] at h; exact .inl h
    · by_cases h2 : c = CR
      · subst h2; simp [convert, cr_ne_lf] at h; exact .inl h
      · simp [convert, h1, h2] at h
        subst h; exact .inr ⟨by simp, h1, h2⟩
  | c :: n :: rest, b, h => by
    by_cases h1 : c = LF
    · subst h1
      rw [convert_cons_lf] at h
      rcases List.mem_append.mp h with h | h
      · exact .inl h
      · rcases mem_convert t (n :: rest) b h with h | ⟨hm, hb⟩
        · exact .inl h
        · exact .inr ⟨List.mem_cons_of_mem _ hm, hb⟩
    · by_cases h2 : c = CR
      · subst h2
        by_cases h3 : n = LF
        · subst h3
          rw [convert_cons_cr_lf] at h
          rcases List.mem_append.mp h with h | h
          · exact .inl h
          · rcases mem_convert t rest b h with h | ⟨hm, hb⟩
            · exact .inl h
            · exact .inr ⟨List.mem_cons_of_mem _ (List.mem_cons_of_mem _ hm), hb⟩
        · rw [convert_cons_cr t _ (by simp only [List.head?]; intro he; exact h3 (by injection he))] at h
          rcases List.mem_append.mp h with h | h
          · exact .inl h
          · rcases mem_convert t (n :: rest) b h with h | ⟨hm, hb⟩
            · exact .inl h
            · exact .inr ⟨List.mem_cons_of_mem _ hm, hb⟩
      · rw [convert_cons_other t c _ h1 h2] at h
        rcases List.mem_cons.mp h with h | h
        · subst h; exact .inr ⟨by simp, h1, h2⟩
        · rcases mem_convert t (n :: rest) b h with h | ⟨hm, hb⟩
          · exact .inl h
          · exact .inr ⟨List.mem_cons_of_mem _ hm, hb⟩

/-- Converting to LF leaves no CR byte in the output. -/
theorem cr_not_mem_convert_lf (l : List Nat) : CR ∉ convert [LF] l := by
  intro h
  rcases mem_convert [LF] l CR h with h | ⟨_, _, hb⟩
  · simp at h; exact cr_ne_lf h
  · exact hb rfl

/-- Converting to CR leaves no LF byte in the output. -/
theorem lf_not_mem_convert_cr (l : List Nat) : LF ∉ convert [CR] l := by
  intro h
  rcases mem_convert [CR] l LF h with h | ⟨_, hb, _⟩
  · simp at h; exact cr_ne_lf h.symm
  · exact hb rfl

/-- A CR-free stream is a fixed point of conversion to LF. -/
theorem convert_lf_id : ∀ l : List Nat, CR ∉ l → convert [LF] l = l
  | [], _ => rfl
  | [b], h => by
    have h2 : b ≠ CR := by simp at h; exact fun he => h he.symm
    by_cases h1 : b = LF
    · subst h1; simp [convert]
    · simp [convert, h1, h2]
  | b :: n :: rest, h => by
    have hb : b ≠ CR := by intro he; exact h (he ▸ List.mem_cons_self b _)
    have hrest : CR ∉ n :: rest := fun hm => h (List.mem_cons_of_mem _ hm)
    by_cases h1 : b = LF
    · subst h1
      rw [convert_cons_lf, convert_lf_id (n :: rest) hrest]
      rfl
    · rw [convert_cons_other _ b _ h1 hb, convert_lf_id (n :: rest) hrest]

/-- An LF-free stream is a fixed point of conversion to CR. -/
theorem convert_cr_id : ∀ l : List Nat, LF ∉ l → convert [CR] l = l
  | [], _ => rfl
  | [b], h => by
    have h1 : b ≠ LF := by simp at h; exact fun he => h he.symm
    by_cases h2 : b = CR
    · subst h2; simp [convert, cr_ne_lf]
    · simp [convert, h1, h2]
  | b :: n :: rest, h => by
    have hb : b ≠ LF := by intro he; exact h (he ▸ List.mem_cons_self b _)
    have hn : n ≠ LF := by
      intro he; exact h (List.mem_cons_of_mem _ (he ▸ List.mem_cons_self n _))
    have hrest : LF ∉ n :: rest := fun hm => h (List.mem_cons_of_mem _ hm)
    by_cases h2 : b = CR
    · subst h2
      rw [convert_cons_cr _ _ (by simp only [List.head?]; intro he; exact hn (by injection he)),
        convert_cr_id (n :: rest) hrest]
      rfl
    · rw [convert_cons_other _ b _ hb h2, convert_cr_id (n :: rest) hrest]

/-- A stream is CRLF-paired when its line-break bytes occur only as
adjacent `CR LF` pairs: every `CR` is directly followed by `LF` and no
`LF` occurs outside such a pair. -/
def crlfPaired : List Nat → Bool
  | [] => true
  | [b] => if b = CR then false else if b = LF then false else true
  | b :: n :: rest =>
    if b = CR then (if n = LF then crlfPaired rest else false)
    else if b = LF then false
    else crlfPaired (n :: rest)

theorem crlfPaired_nil : crlfPaired [] = true := rfl

theorem crlfPaired_cons_cr_lf (l : List Nat) :
    crlfPaired (CR :: LF :: l) = crlfPaired l := by
  simp [crlfPaired]

theorem crlfPaired_cons_other (b : Nat) (l : List Nat) (h1 : b ≠ LF) (h2 : b ≠ CR) :
    crlfPaired (b :: l) = crlfPaired l := by
  cases l <;> simp [crlfPaired, h1, h2]

/-- Converting to CRLF yields a CRLF-paired stream. -/
theorem crlfPaired_convert_crlf : ∀ l : List Nat, crlfPaired (convert [CR, LF] l) = true
  | [] => rfl
  | [b] => by
    by_cases h1 : b = LF
    · subst h1; simp [convert, crlfPaired, cr_ne_lf]
    · by_cases h2 : b = CR
      · subst h2; simp [convert, crlfPaired, cr_ne_lf]
      · simp [convert, crlfPaired, h1, h2]
  | b :: n :: rest => by
    by_cases h1 : b = LF
    · subst h1
      rw [convert_cons_lf]
      show crlfPaired (CR :: LF :: convert [CR, LF] (n :: rest)) = true
      rw [crlfPaired_cons_cr_lf]
      exact crlfPaired_convert_crlf (n :: rest)
    · by_cases h2 : b = CR
      · subst h2
        by_cases h3 : n = LF
        · subst h3
          rw [convert_cons_cr_lf]
          show crlfPaired (CR :: LF :: convert [CR, LF] rest) = true
          rw [crlfPaired_cons_cr_lf]
          exact crlfPaired_convert_crlf rest
        · rw [convert_cons_cr _ _
            (by simp only [List.head?]; intro he; exact h3 (by injection he))]
          show crlfPaired (CR :: LF :: convert [CR, LF] (n :: rest)) = true
          rw [crlfPaired_cons_cr_lf]
          exact crlfPaired_convert_crlf (n :: rest)
      · rw [convert_cons_other _ b _ h1 h2, crlfPaired_cons_other b _ h1 h2]
        exact crlfPaired_convert_crlf (n :: rest)

/-- A CRLF-paired stream is a fixed point of conversion to CRLF. -/
theorem convert_crlf_id : ∀ l : List Nat, crlfPaired l = true → convert [CR, LF] l = l
  | [], _ => rfl
  | [b], h => by
    by_cases h2 : b = CR
    · subst h2; simp [crlfPaired] at h
    · by_cases h1 : b = LF
      · subst h1; simp [crlfPaired, cr_ne_lf] at h
      · simp [convert, h1, h2]
  | b :: n :: rest, h => by
    by_cases h2 : b = CR
    · subst h2
      by_cases h3 : n = LF
      · subst h3
        rw [crlfPaired_cons_cr_lf] at h
        rw [convert_cons_cr_lf, convert_crlf_id rest h]
        rfl
      · simp [crlfPaired, h3] at h
    · by_cases h1 : b = LF
      · subst h1
        have : crlfPaired (LF :: n :: rest) = false := by
          simp [crlfPaired, cr_ne_lf.symm]
        rw [this] at h; cases h
      · rw [crlfPaired_cons_other b _ h1 h2] at h
        rw [convert_cons_other _ b _ h1 h2, convert_crlf_id (n :: rest) h]

/-- Position-wise reading of one half of CRLF pairing: every `CR` byte is
immediately followed by an `LF` byte (reading positions with `getD` and
default 0, which is neither `CR` nor `LF`). -/
def crFollowedByLf (l : List Nat) : Prop :=
  ∀ i : Nat, l.getD i 0 = CR → l.getD (i + 1) 0 = LF

/-- Position-wise reading of the other half of CRLF pairing: every `LF`
byte is immediately preceded by a `CR` byte. -/
def lfPrecededByCr (l : List Nat) : Prop :=
  ∀ i : Nat, l.getD i 0 = LF → ∃ j : Nat, i = j + 1 ∧ l.getD j 0 = CR

theorem crFollowedByLf_of_paired : ∀ l : List Nat, crlfPaired l = true → crFollowedByLf l
  | [], _ => by intro i hi; rw [List.getD_nil] at hi; cases hi
  | [b], h => by
    intro i hi
    match i with
    | 0 =>
      rw [List.getD_cons_zero] at hi
      subst hi
      simp [crlfPaired] at h
    | i + 1 =>
      rw [List.getD_cons_succ, List.getD_nil] at hi
      cases hi
  | b :: n :: rest, h => by
    by_cases h2 : b = CR
    · subst h2
      by_cases h3 : n = LF
      · subst h3
        rw [crlfPaired_cons_cr_lf] at h
        intro i hi
        match i with
        | 0 => rw [List.getD_cons_succ, List.getD_cons_zero]
        | 1 =>
          rw [List.getD_cons_succ, List.getD_cons_zero] at hi
          exact absurd hi.symm cr_ne_lf
        | i + 2 =>
          rw [List.getD_cons_succ, List.getD_cons_succ] at hi ⊢
          exact crFollowedByLf_of_paired rest h i hi
      · simp [crlfPaired, h3] at h
    · by_cases h1 : b = LF
      · subst h1
        have : crlfPaired (LF :: n :: rest) = false := by
          simp [crlfPaired, cr_ne_lf.symm]
        rw [this] at h; cases h
      · rw [crlfPaired_cons_other b _ h1 h2] at h
        intro i hi
        match i with
        | 0 => rw [List.getD_cons_zero] at hi; exact absurd hi h2
        | i + 1 =>
          rw [List.getD_cons_succ] at hi
          rw [List.getD_cons_succ]
          exact crFollowedByLf_of_paired (n :: rest) h i hi

theorem lfPrecededByCr_of_paired : ∀ l : List Nat, crlfPaired l = true → lfPrecededByCr l
  | [], _ => by intro i hi; rw [List.getD_nil] at hi; cases hi
  | [b], h => by
    intro i hi
    match i with
    | 0 =>
      rw [List.getD_cons_zero] at hi
      subst hi
      simp [crlfPaired, cr_ne_lf.symm] at h
    | i + 1 =>
      rw [List.getD_cons_succ, List.getD_nil] at hi
      cases hi
  | b :: n :: rest, h => by
    by_cases h2 : b = CR
    · subst h2
      by_cases h3 : n = LF
      · subst h3
        rw [crlfPaired_cons_cr_lf] at h
        intro i hi
        match i with
        | 0 =>
          rw [List.getD_cons_zero] at hi
          exact absurd hi cr_ne_lf
        | 1 => exact ⟨0, rfl, List.getD_cons_zero⟩
        | i + 2 =>
          rw [List.getD_cons_succ, List.getD_cons_succ] at hi
          obtain ⟨j, hj, hcr⟩ := lfPrecededByCr_of_paired rest h i hi
          exact ⟨j + 2, by omega, by rw [List.getD_cons_succ, List.getD_cons_succ]; exact hcr⟩
      · simp [crlfPaired, h3] at h
    · by_cases h1 : b = LF
      · subst h1
        have : crlfPaired (LF :: n :: rest) = false := by
          simp [crlfPaired, cr_ne_lf.symm]
        rw [this] at h; cases h
      · rw [crlfPaired_cons_other b _ h1 h2] at h
        intro i hi
        match i with
        | 0 => rw [List.getD_cons_zero] at hi; exact absurd hi h1
        | i + 1 =>
          rw [List.getD_cons_succ] at hi
          obtain ⟨j, hj, hcr⟩ := lfPrecededByCr_of_paired (n :: rest) h i hi
          exact ⟨j + 1, by omega, by rw [List.getD_cons_succ]; exact hcr⟩

/-- Modelled from the spec (section 4.1): a lexical token of the input —
either one line-break occurrence or one ordinary byte. -/
inductive SpecTok
  | brk
  | byte (b : Nat)
deriving DecidableEq

/-- Modelled from the spec (section 4.1): the decomposition of the input
into line-break occurrences and ordinary bytes. A line-break occurrence is
a `LF` byte, a `CR LF` pair (the `CR` consumes a directly following `LF`
as part of the same break), or a lone `CR`; every other byte is an
ordinary byte, kept in its original order. -/
def specTokens : List Nat → List SpecTok
  | [] => []
  | [b] =>
    if b = LF then [.brk]
    else if b = CR then [.brk]
    else [.byte b]
  | b :: n :: rest =>
    if b = LF then .brk :: specTokens (n :: rest)
    else if b = CR then
      if n = LF then .brk :: specTokens rest
      else .brk :: specTokens (n :: rest)
    else .byte b :: specTokens (n :: rest)

/-- Modelled from the spec: each line-break occurrence is replaced by
exactly one copy of the target sequence, each ordinary byte by itself. -/
def renderTok (t : List Nat) : SpecTok → List Nat
  | .brk => t
  | .byte b => [b]

/-- The transform equals the spec-side description: tokenize the input
into line-break occurrences and ordinary bytes, then substitute the
target for each break and keep every other byte. -/
theorem convert_eq_renderedTokens (t : List Nat) : ∀ l : List Nat,
    convert t l = (specTokens l).flatMap (renderTok t)
  | [] => rfl
  | [b] => by
    by_cases h1 : b = LF
    · subst h1; simp [convert, specTokens, renderTok]
    · by_cases h2 : b = CR
      · subst h2; simp [convert, specTokens, renderTok, cr_ne_lf]
      · simp [convert, specTokens, renderTok, h1, h2]
  | b :: n :: rest => by
    by_cases h1 : b = LF
    · subst h1
      rw [convert_cons_lf, convert_eq_renderedTokens t (n :: rest)]
      simp [specTokens, renderTok]
    · by_cases h2 : b = CR
      · subst h2
        by_cases h3 : n = LF
        · subst h3
          rw [convert_cons_cr_lf, convert_eq_renderedTokens t rest]
          simp [specTokens, renderTok, cr_ne_lf]
        · rw [convert_cons_cr t _
            (by simp only [List.head?]; intro he; exact h3 (by injection he)),
            convert_eq_renderedTokens t (n :: rest)]
          have : specTokens (CR :: n :: rest) = .brk :: specTokens (n :: rest) := by
            simp [specTokens, cr_ne_lf, h3]
          rw [this]
          simp [renderTok]
      · rw [convert_cons_other t b _ h1 h2, convert_eq_renderedTokens t (n :: rest)]
        have : specTokens (b :: n :: rest) = .byte b :: specTokens (n :: rest) := by
          simp [specTokens, h1, h2]
        rw [this]
        simp [renderTok]

/-- ASCII lowercasing of one character, as `u8::to_ascii_lowercase` does
byte-wise in `s.to_ascii_lowercase()`: only `A`..`Z` change. -/
def asciiLowerChar (c : Char) : Char :=
  if 'A' ≤ c ∧ c ≤ 'Z' then Char.ofNat (c.toNat + 32) else c

/-- ASCII lowercasing of a string (`str::to_ascii_lowercase` in
`Eol::from_str`). -/
def asciiLowercase (s : String) : String :=
  ⟨s.data.map asciiLowerChar⟩

/-- `Eol::from_str` from src/main.rs: match the ASCII-lowercased input
against "lf", "crlf", "cr"; anything else is an error
(`anyhow::bail!("Unknown end-of-line sequence")`). -/
def Eol.fromStr (s : String) : Except String Eol :=
  let t := asciiLowercase s
  if t = "lf" then .ok .Lf
  else if t = "crlf" then .ok .Crlf
  else if t = "cr" then .ok .Cr
  else .error "Unknown end-of-line sequence"

/-- The `Display` impl for `Eol` from src/main.rs. -/
def Eol.display : Eol → String
  | .Lf => "LF"
  | .Crlf => "CRLF"
  | .Cr => "CR"

/-- Abstraction of the glob matcher and the filesystem as seen by `main`:
`valid p` is whether `glob::glob_with(p, options)` compiles pattern `p`
(the match options are fixed for the whole run, so they are baked into the
environment); `expand p` is the list of paths the compiled pattern yields,
in glob iteration order; `isFile p` is `Path::is_file`. -/
structure GlobEnv where
  valid : String → Bool
  expand : String → List String
  isFile : String → Bool

/-- One `flat_map`/`filter(is_file)`/`collect` pass of `main` over a list
of patterns: the first pattern that fails to compile aborts the whole run
(`unwrap_or_else(exit_with_error)`), otherwise the regular-file matches of
all patterns are concatenated in order. Filtering each pattern before
concatenation equals the source order (concatenate, then filter), since
`filter` distributes over concatenation. -/
def collectFiles (env : GlobEnv) : List String → Except String (List String)
  | [] => .ok []
  | p :: rest =>
    if env.valid p then
      match collectFiles env rest with
      | .ok r => .ok ((env.expand p).filter env.isFile ++ r)
      | .error e => .error e
    else .error p

/-- The Selection Pipeline of `main`: build the exclusion set from the
exclude patterns, then the include list, keeping only regular files not in
the exclusion set. The Rust `HashSet` of excluded paths is modelled as a
list used only through membership. Include matches are collected into a
`Vec` — order-preserving, without deduplication. -/
def selectPaths (env : GlobEnv) (includes excludes : List String) :
    Except String (List String) :=
  match collectFiles env excludes with
  | .error e => .error e
  | .ok excluded =>
    match collectFiles env includes with
    | .error e => .error e
    | .ok incl => .ok (incl.filter (fun p => !(excluded.contains p)))

/-- An observable effect of the per-path loop of `main`. -/
inductive Event
  | lineOut (line : String)
  | fileWrite (path : String) (contents : List Nat)
  | debugOut (bytes : List Nat)
deriving DecidableEq

/-- The `DebugWriter` decorator from src/main.rs: `LF` is rendered as the
two bytes `\` `n`, `CR` as `\` `r`, every other byte unchanged. -/
def escapeDebug (l : List Nat) : List Nat :=
  l.flatMap (fun b =>
    if b = LF then [0x5C, 0x6E]
    else if b = CR then [0x5C, 0x72]
    else [b])

/-- The base-command path of `main` (no `stdin` subcommand): resolve the
Path Set, then for each selected path either print it (dry-run), print the
converted bytes through `DebugWriter` (debug), or convert the file
contents and commit them back to the same path. An invalid pattern aborts
before the loop; the returned event list is the ordered sequence of
observable effects. -/
def runMain (env : GlobEnv) (fileContents : String → List Nat)
    (includes excludes : List String) (eol : Eol) (dryRun debug : Bool) :
    Except String (List Event) :=
  match selectPaths env includes excludes with
  | .error e => .error e
  | .ok paths =>
    .ok (paths.flatMap (fun path =>
      if dryRun then [.lineOut path]
      else if debug then [.debugOut (escapeDebug (convert eol.seq (fileContents path)))]
      else [.fileWrite path (convert eol.seq (fileContents path))]))

theorem collectFiles_mem (env : GlobEnv) : ∀ (pats : List String) (out : List String),
    collectFiles env pats = .ok out →
    ∀ p : String, p ∈ out ↔ ∃ pat ∈ pats, p ∈ env.expand pat ∧ env.isFile p = true
  | [], out, h => by
    simp [collectFiles] at h
    subst h
    simp
  | q :: rest, out, h => by
    intro p
    by_cases hv : env.valid q
    · simp only [collectFiles, hv, if_pos] at h
      cases hr : collectFiles env rest with
      | error e => rw [hr] at h; cases h
      | ok r =>
        rw [hr] at h
        injection h with h
        subst h
        have ih := collectFiles_mem env rest r hr p
        constructor
        · intro hm
          rcases List.mem_append.mp hm with hm | hm
          · have := List.mem_filter.mp hm
            exact ⟨q, List.mem_cons_self q rest, this.1, this.2⟩
          · obtain ⟨pat, hpat, hexp, hf⟩ := ih.mp hm
            exact ⟨pat, List.mem_cons_of_mem _ hpat, hexp, hf⟩
        · rintro ⟨pat, hpat, hexp, hf⟩
          rcases List.mem_cons.mp hpat with hpat | hpat
          · subst hpat
            exact List.mem_append.mpr (.inl (List.mem_filter.mpr ⟨hexp, hf⟩))
          · exact List.mem_append.mpr (.inr (ih.mpr ⟨pat, hpat, hexp, hf⟩))
    · simp only [collectFiles, hv, if_neg, Bool.false_eq_true, not_false_iff] at h
      cases h

theorem collectFiles_error (env : GlobEnv) : ∀ pats : List String,
    (∃ p ∈ pats, env.valid p = false) → ∃ e, collectFiles env pats = .error e
  | [], h => by simp at h
  | q :: rest, h => by
    by_cases hv : env.valid q
    · obtain ⟨p, hp, hpv⟩ := h
      rcases List.mem_cons.mp hp with hp | hp
      · subst hp; rw [hv] at hpv; cases hpv
      · obtain ⟨e, he⟩ := collectFiles_error env rest ⟨p, hp, hpv⟩
        exact ⟨e, by simp only [collectFiles, hv, if_pos, he]⟩
    · exact ⟨q, by simp only [collectFiles, hv, if_neg, Bool.false_eq_true, not_false_iff]⟩

theorem count_filter_eq {α : Type} [DecidableEq α] (p : α → Bool) (a : α) :
    ∀ l : List α, (l.filter p).count a = if p a = true then l.count a else 0
  | [] => by simp
  | b :: l => by
    have ih := count_filter_eq p a l
    by_cases hba : b = a
    · subst hba
      by_cases hb : p b
      · simp [List.filter_cons, hb, List.count_cons, ih]
      · simp [List.filter_cons, hb, ih]
    · by_cases hb : p b
      · simp [List.filter_cons, hb, List.count_cons, hba, ih]
      · simp [List.filter_cons, hb, List.count_cons, hba, ih]

/-- Multiplicity of a path in a collected pattern expansion: one
occurrence per (pattern, regular-file match) pair, with no deduplication
across patterns. -/
theorem collectFiles_count (env : GlobEnv) : ∀ (pats out : List String),
    collectFiles env pats = .ok out →
    ∀ p : String,
      out.count p = (pats.map (fun pat => ((env.expand pat).filter env.isFile).count p)).sum
  | [], out, h => by
    simp [collectFiles] at h
    subst h
    simp
  | q :: rest, out, h => by
    intro p
    by_cases hv : env.valid q
    · simp only [collectFiles, hv, if_pos] at h
      cases hr : collectFiles env rest with
      | error e => rw [hr] at h; cases h
      | ok r =>
        rw [hr] at h
        injection h with h
        subst h
        rw [List.count_append, List.map_cons, List.sum_cons,
          collectFiles_count env rest r hr p]
    · simp only [collectFiles, hv, if_neg, Bool.false_eq_true, not_false_iff] at h
      cases h

/-- Observable contents of the original file across one conversion unit in
the base command (the non-dry-run, non-debug branch of the loop in
`main`). The converted stream goes to a fresh temp file, so a read or
transform error exits the process before any write to the original
(`exit_with_error` inside the byte iterator, or `?` propagating out of
`main`). Otherwise the commit is `fs::copy(temp, path)`, which per its
documented semantics truncates the destination in place and then copies
the bytes through a buffer — modelled byte by byte — so every intermediate
prefix of the converted stream is an observable content of the original
during the commit. -/
def unitTrace (original : List Nat) (eol : Eol) (ioErrorBeforeCommit : Bool) :
    List (List Nat) :=
  if ioErrorBeforeCommit then [original]
  else
    original ::
      (List.range ((convert eol.seq original).length + 1)).map
        (fun k => (convert eol.seq original).take k)

theorem flatMap_singleton_eq_map {α β : Type} (l : List α) (f : α → β) :
    (l.flatMap fun x => [f x]) = l.map f := by
  induction l with
  | nil => rfl
  | cons b l ih => simp [List.flatMap_cons, ih]

/-- Concrete selection environment: every pattern is valid, patterns `a`
and `b` each expand to the single regular file `f.txt`. -/
def envTwoPatternsOneFile : GlobEnv where
  valid := fun _ => true
  expand := fun _ => ["f.txt"]
  isFile := fun _ => true

/-- Concrete selection environment: pattern `inc` expands to regular files
`f` and `g`, pattern `exc` expands to `f`. -/
def envIncludeExclude : GlobEnv where
  valid := fun _ => true
  expand := fun p => if p = "inc" then ["f", "g"] else if p = "exc" then ["f"] else []
  isFile := fun _ => true

/-- Concrete selection environment in which only the pattern `bad` fails
to compile. -/
def envBadPattern : GlobEnv where
  valid := fun p => !(p == "bad")
  expand := fun _ => ["f"]
  isFile := fun _ => true

/-- C1: for every finite byte sequence and every target EOL (LF, CRLF, or
CR), the output of the Transform Engine is the input with each line-break
occurrence — an LF, a CR-LF pair, or a lone CR — replaced by exactly one
copy of the target byte sequence, and every byte that is not part of a
line break copied unchanged, in the original order. -/
theorem C1_transform_replaces_breaks (e : Eol) (l : List Nat) :
    convert e.seq l = (specTokens l).flatMap (renderTok e.seq) :=
  convert_eq_renderedTokens e.seq l

/-- C4: for every byte sequence and every target, the conversion is
idempotent: converting the output again with the same target yields a
byte-identical result. -/
theorem C4_convert_idempotent (e : Eol) (s : List Nat) :
    convert e.seq (convert e.seq s) = convert e.seq s := by
  cases e with
  | Lf => exact convert_lf_id _ (cr_not_mem_convert_lf s)
  | Crlf => exact convert_crlf_id _ (crlfPaired_convert_crlf s)
  | Cr => exact convert_cr_id _ (lf_not_mem_convert_cr s)

/-- C6: an input ending in a CR byte with no following byte still emits
exactly one target sequence for that trailing CR; in particular the
one-byte input CR converts to exactly one copy of the target. -/
theorem C6_trailing_cr (e : Eol) (s : List Nat) :
    convert e.seq (s ++ [CR]) = convert e.seq s ++ e.seq ∧
    convert e.seq [CR] = e.seq := by
  refine ⟨convert_append_cr e.seq s, ?_⟩
  simpa [convert_nil] using convert_append_cr e.seq []

/-- C9: converting to LF leaves no CR byte in the output; converting to CR
leaves no LF byte; converting to CRLF yields an output in which every CR
is immediately followed by LF and every LF is immediately preceded by CR. -/
theorem C9_output_invariants (s : List Nat) :
    CR ∉ convert Eol.Lf.seq s ∧
    LF ∉ convert Eol.Cr.seq s ∧
    crFollowedByLf (convert Eol.Crlf.seq s) ∧
    lfPrecededByCr (convert Eol.Crlf.seq s) :=
  ⟨cr_not_mem_convert_lf s, lf_not_mem_convert_cr s,
    crFollowedByLf_of_paired _ (crlfPaired_convert_crlf s),
    lfPrecededByCr_of_paired _ (crlfPaired_convert_crlf s)⟩

theorem C9_output_invariants_witness :
    CR ∉ convert Eol.Lf.seq [0x61, CR, LF, CR] ∧
    LF ∉ convert Eol.Cr.seq [0x61, CR, LF, CR] ∧
    crFollowedByLf (convert Eol.Crlf.seq [0x61, CR, LF, CR]) ∧
    lfPrecededByCr (convert Eol.Crlf.seq [0x61, CR, LF, CR]) :=
  C9_output_invariants [0x61, CR, LF, CR]

/-- C5: a path matched by at least one exclude pattern and referencing a
regular file never appears in the produced Path Set, regardless of which
include patterns also match it and of pattern order. -/
theorem C5_exclude_dominates (env : GlobEnv) (includes excludes paths : List String)
    (hsel : selectPaths env includes excludes = .ok paths) (p : String)
    (hmatch : ∃ pat ∈ excludes, p ∈ env.expand pat) (hfile : env.isFile p = true) :
    p ∉ paths := by
  unfold selectPaths at hsel
  cases hexc : collectFiles env excludes with
  | error e => rw [hexc] at hsel; cases hsel
  | ok excluded =>
    rw [hexc] at hsel
    cases hinc : collectFiles env includes with
    | error e => rw [hinc] at hsel; cases hsel
    | ok incl =>
      rw [hinc] at hsel
      injection hsel with hsel
      subst hsel
      intro hmem
      obtain ⟨_, hnotex⟩ := List.mem_filter.mp hmem
      have hpm : p ∈ excluded := by
        obtain ⟨pat, hpat, hexp⟩ := hmatch
        exact (collectFiles_mem env excludes excluded hexc p).mpr ⟨pat, hpat, hexp, hfile⟩
      simp [hpm] at hnotex

theorem C5_witness :
    selectPaths envIncludeExclude ["inc"] ["exc"] = .ok ["g"] ∧
    "f" ∉ (["g"] : List String) :=
  ⟨by rfl,
    C5_exclude_dominates envIncludeExclude ["inc"] ["exc"] ["g"] (by rfl) "f"
      ⟨"exc", by decide, by decide⟩ (by decide)⟩

/-- C7: if any include or exclude pattern fails to compile, the run stops
with an error before the processing loop: no event (no print, no file
write) is produced. -/
theorem C7_invalid_pattern_fails_fast (env : GlobEnv)
    (fileContents : String → List Nat) (includes excludes : List String)
    (eol : Eol) (dryRun debug : Bool)
    (hbad : ∃ p ∈ includes ++ excludes, env.valid p = false) :
    ∃ e, runMain env fileContents includes excludes eol dryRun debug = .error e := by
  obtain ⟨p, hp, hpv⟩ := hbad
  unfold runMain selectPaths
  rcases List.mem_append.mp hp with hp | hp
  · cases hexc : collectFiles env excludes with
    | error e => exact ⟨e, rfl⟩
    | ok excluded =>
      obtain ⟨e, he⟩ := collectFiles_error env includes ⟨p, hp, hpv⟩
      rw [he]
      exact ⟨e, rfl⟩
  · obtain ⟨e, he⟩ := collectFiles_error env excludes ⟨p, hp, hpv⟩
    rw [he]
    exact ⟨e, rfl⟩

theorem C7_witness :
    ∃ e, runMain envBadPattern (fun _ => []) ["ok", "bad"] [] Eol.Lf false false = .error e :=
  C7_invalid_pattern_fails_fast envBadPattern (fun _ => []) ["ok", "bad"] [] Eol.Lf
    false false ⟨"bad", by decide, by decide⟩

/-- C8: with dry-run enabled the run emits exactly one printed line per
path of the Path Set, in order, and produces no file write. -/
theorem C8_dry_run_prints_only (env : GlobEnv) (fileContents : String → List Nat)
    (includes excludes paths : List String) (eol : Eol) (debug : Bool)
    (hsel : selectPaths env includes excludes = .ok paths) :
    runMain env fileContents includes excludes eol true debug =
      .ok (paths.map Event.lineOut) ∧
    ∀ ev ∈ paths.map Event.lineOut, ∀ (q : String) (c : List Nat),
      ev ≠ Event.fileWrite q c := by
  constructor
  · unfold runMain
    rw [hsel]
    simp only [if_pos, if_true]
    rw [flatMap_singleton_eq_map]
  · rintro ev hev q c rfl
    obtain ⟨x, _, hx⟩ := List.mem_map.mp hev
    cases hx

theorem C8_dry_run_witness :
    runMain envIncludeExclude (fun _ => []) ["inc"] [] Eol.Lf true false =
      .ok ((["f", "g"] : List String).map Event.lineOut) ∧
    ∀ ev ∈ (["f", "g"] : List String).map Event.lineOut, ∀ (q : String) (c : List Nat),
      ev ≠ Event.fileWrite q c :=
  C8_dry_run_prints_only envIncludeExclude (fun _ => []) ["inc"] [] ["f", "g"]
    Eol.Lf false (by rfl)

/-- C10: parsing an EOL name succeeds exactly when the ASCII-lowercased
input is "lf", "crlf" or "cr", and parsing the Display rendering of any
`Eol` value returns that value again. -/
theorem C10_eol_parse_display (s : String) :
    ((∃ e : Eol, Eol.fromStr s = .ok e) ↔
      (asciiLowercase s = "lf" ∨ asciiLowercase s = "crlf" ∨ asciiLowercase s = "cr")) ∧
    (∀ e : Eol, Eol.fromStr e.display = .ok e) := by
  constructor
  · unfold Eol.fromStr
    by_cases h1 : asciiLowercase s = "lf"
    · simp [h1]
    · by_cases h2 : asciiLowercase s = "crlf"
      · simp [h1, h2]
      · by_cases h3 : asciiLowercase s = "cr"
        · simp [h1, h2, h3]
        · simp [h1, h2, h3]
  · intro e
    cases e <;> rfl

theorem C10_witness :
    ((∃ e : Eol, Eol.fromStr "CrLf" = .ok e) ↔
      (asciiLowercase "CrLf" = "lf" ∨ asciiLowercase "CrLf" = "crlf" ∨
        asciiLowercase "CrLf" = "cr")) ∧
    (∀ e : Eol, Eol.fromStr e.display = .ok e) :=
  C10_eol_parse_display "CrLf"

/-- C2, counterexample: with two include patterns both matching the
regular file `f.txt` and no excludes, the produced Path Set contains
`f.txt` twice, not exactly once — the include collection is a plain `Vec`
with no deduplication across patterns. -/
theorem C2_counterexample :
    selectPaths envTwoPatternsOneFile ["a", "b"] [] = .ok ["f.txt", "f.txt"] ∧
    ¬((["f.txt", "f.txt"] : List String).count "f.txt" = 1) :=
  ⟨by rfl, by decide⟩

/-- C2, amended: a path matched by several include patterns appears once
per (include pattern, regular-file match) occurrence — its multiplicity in
the Path Set is the sum over the include patterns of its multiplicity in
that pattern's regular-file expansion, and 0 when it is excluded; there is
no deduplication across include patterns. -/
theorem C2_amended_multiplicity (env : GlobEnv)
    (includes excludes excluded paths : List String)
    (hexc : collectFiles env excludes = .ok excluded)
    (hsel : selectPaths env includes excludes = .ok paths) (p : String) :
    paths.count p =
      if excluded.contains p then 0
      else (includes.map (fun pat => ((env.expand pat).filter env.isFile).count p)).sum := by
  unfold selectPaths at hsel
  rw [hexc] at hsel
  cases hinc : collectFiles env includes with
  | error e => rw [hinc] at hsel; cases hsel
  | ok incl =>
    rw [hinc] at hsel
    injection hsel with hsel
    subst hsel
    rw [count_filter_eq, collectFiles_count env includes incl hinc p]
    by_cases hc : excluded.contains p
    · simp [hc]
    · simp [hc]

theorem C2_amended_witness :
    (["f.txt", "f.txt"] : List String).count "f.txt" =
      if ([] : List String).contains "f.txt" then 0
      else ((["a", "b"] : List String).map (fun pat =>
        ((envTwoPatternsOneFile.expand pat).filter envTwoPatternsOneFile.isFile).count
          "f.txt")).sum :=
  C2_amended_multiplicity envTwoPatternsOneFile ["a", "b"] [] [] ["f.txt", "f.txt"]
    (by rfl) (by rfl) "f.txt"

/-- C3, counterexample: the commit step is `fs::copy(temp, path)`, which
truncates the original and copies bytes into it, so for the two-byte file
`a CR` converted to LF an intermediate observable content of the original
(the one-byte prefix `a`) is neither the original contents nor the full
converted stream — the original is observable in a partially-converted
state. -/
theorem C3_counterexample :
    ∃ st ∈ unitTrace [0x61, CR] Eol.Lf false,
      st ≠ [0x61, CR] ∧ st ≠ convert Eol.Lf.seq [0x61, CR] := by
  refine ⟨[0x61], ?_, by decide, by decide⟩
  decide

/-- C3, amended: an I/O error while reading or converting aborts the unit
before any write to the original, leaving it untouched; otherwise every
observable content of the original during the unit is the original or a
prefix of the converted stream (the commit truncates and copies, so
intermediate prefixes are observable), and the final content is the full
converted stream. -/
theorem C3_amended_unit_trace (original : List Nat) (eol : Eol) (err : Bool) :
    (err = true → unitTrace original eol err = [original]) ∧
    (∀ st ∈ unitTrace original eol err,
      st = original ∨ ∃ k, st = (convert eol.seq original).take k) ∧
    (err = false →
      (unitTrace original eol err).getLast? = some (convert eol.seq original)) := by
  refine ⟨?_, ?_, ?_⟩
  · intro he
    simp [unitTrace, he]
  · intro st hst
    unfold unitTrace at hst
    by_cases he : err = true
    · rw [if_pos he] at hst
      simp at hst
      exact .inl hst
    · simp only [Bool.not_eq_true] at he
      rw [he] at hst
      simp only [Bool.false_eq_true, if_false, List.mem_cons, List.mem_map,
        List.mem_range] at hst
      rcases hst with h | ⟨k, _, h⟩
      · exact .inl h
      · exact .inr ⟨k, h.symm⟩
  · intro he
    rw [unitTrace, he]
    simp only [Bool.false_eq_true, if_false]
    rw [List.range_succ, List.map_append]
    simp only [List.map_cons, List.map_nil]
    rw [show ∀ (a : List Nat) (l₁ l₂ : List (List Nat)), a :: (l₁ ++ l₂) = (a :: l₁) ++ l₂
      from fun _ _ _ => rfl]
    rw [List.getLast?_concat]
    simp [List.take_length]

theorem C3_amended_witness :
    ((false : Bool) = true → unitTrace [0x61, CR] Eol.Lf false = [[0x61, CR]]) ∧
    (∀ st ∈ unitTrace [0x61, CR] Eol.Lf false,
      st = [0x61, CR] ∨ ∃ k, st = (convert Eol.Lf.seq [0x61, CR]).take k) ∧
    ((false : Bool) = false →
      (unitTrace [0x61, CR] Eol.Lf false).getLast? =
        some (convert Eol.Lf.seq [0x61, CR])) :=
  C3_amended_unit_trace [0x61, CR] Eol.Lf false

end Newl
